import Mathlib

/-!
Shallow embedding of `src/rewrite.py` (gen-z-rewrite) and proofs about it.

Strings are modelled as `List Char`.  Python `str.strip`, the two regular
expressions (`^\d+:\d+\s` in `detect_format` and `LABEL_RE` in
`parse_verses`), the pure parsing/batching helpers, and the orchestration
loop of `stream_rewrite` are translated function by function.  The regular
expressions are compiled to matchers that follow Python `re` backtracking
semantics (greedy `?`/`+`, lazy `*?`, leftmost match for `re.search`) on the
inputs the program feeds them: stripped lines, which never start or end with
a whitespace character (in particular they never end in a newline, so the
end-anchor `$` coincides with end of string).  ASCII character classes are
used, matching the Python classes on ASCII input.
-/

namespace GenZ

/-- Lines / strings are modelled as lists of characters. -/
abbrev LC := List Char

/-- Python whitespace (`\s`, and the set removed by `str.strip`), ASCII part:
space, tab, newline, carriage return, vertical tab, form feed. -/
def pyIsSpace (c : Char) : Bool :=
  c = ' ' || c = '\t' || c = '\n' || c = '\r' || c = Char.ofNat 11 || c = Char.ofNat 12

/-- ASCII decimal digit (Python `\d` on ASCII input). -/
def pyIsDigit (c : Char) : Bool := '0' ≤ c && c ≤ '9'

/-- The character class `[A-Za-z]`. -/
def pyIsAlpha (c : Char) : Bool := ('A' ≤ c && c ≤ 'Z') || ('a' ≤ c && c ≤ 'z')

/-- The character class `[A-Za-z ]` (alphabetic or a literal space). -/
def pyIsAlphaSpace (c : Char) : Bool := pyIsAlpha c || c = ' '

/-- The character class `[1-3]`. -/
def oneToThree (c : Char) : Bool := c = '1' || c = '2' || c = '3'

/-- Python `str.strip()`: remove leading and trailing whitespace. -/
def stripList (s : LC) : LC :=
  ((s.dropWhile pyIsSpace).reverse.dropWhile pyIsSpace).reverse

/-- `re.match(r'^\d+:\d+\s', s)` from `detect_format`: one or more digits, a
colon, one or more digits, then one whitespace character, anchored at the
start.  The greedy `\d+` are deterministic here because the characters
required next (`:`, `\s`) are not digits, so backtracking cannot help. -/
def versePatternMatch (s : LC) : Bool :=
  let d1 := s.takeWhile pyIsDigit
  if d1.isEmpty then false else
  match s.drop d1.length with
  | ':' :: r2 =>
    let d2 := r2.takeWhile pyIsDigit
    if d2.isEmpty then false else
    match r2.drop d2.length with
    | c :: _ => pyIsSpace c
    | [] => false
  | _ => false

/-- One iteration of the counting loop of `detect_format`, on the
accumulator `(non_empty_lines, verse_count)`: a line counts as non-empty
when its stripped form is non-empty, and as a verse line when additionally
the stripped form matches `^\d+:\d+\s`. -/
def detectStep (acc : Nat × Nat) (line : LC) : Nat × Nat :=
  let stripped := stripList line
  if stripped.isEmpty then acc
  else if versePatternMatch stripped then (acc.1 + 1, acc.2 + 1)
  else (acc.1 + 1, acc.2)

/-- The counting loop of `detect_format`. -/
def detectCounts (lines : List LC) : Nat × Nat :=
  lines.foldl detectStep (0, 0)

/-- `detect_format`.  Python compares `verse_count / non_empty_lines > 0.3`
with float division; this is embedded as the exact rational comparison
`verse_count / non_empty_lines > 3 / 10`, i.e. `3 * n < 10 * v` over `Nat`
(the two agree for every line count below about `6 * 10^15`). -/
def detect_format (lines : List LC) : String :=
  let c := detectCounts lines
  if 0 < c.1 && 3 * c.1 < 10 * c.2 then "verse" else "paragraph"

/-! ### `LABEL_RE`

`LABEL_RE = ^(?P<label>(?:(?:[1-3]?\s?[A-Za-z][A-Za-z ]*?)\s+)?\d+:\d+)\s+(?P<text>.+)$`

`parse_verses` applies it with `re.match` to an already stripped line, so the
match is anchored on both sides.  The matcher below returns the two capture
groups `(label, text)` on success.  Backtracking order: the optional prefix
group is greedy (tried before the no-prefix alternative); within it `[1-3]?`
and `\s?` are greedy and `[A-Za-z ]*?` is lazy; the `\d+`, inner `\s+` and
the `\s+` before `.+` are greedy but deterministic except for `\s+.+$`,
where the engine gives one whitespace character back to `.+` when the
remainder is all whitespace.  `.` matches any character except `'\n'`. -/

/-- Match `\s+(?P<text>.+)$` against `r`, returning the `text` group.
Greedy `\s+` takes the maximal whitespace run; if nothing is left for `.+`
it backtracks one character.  `.` does not match a newline. -/
def wsDotText (r : LC) : Option LC :=
  let w := (r.takeWhile pyIsSpace).length
  if w = 0 then none
  else if w < r.length then
    if (r.drop w).all (fun c => c ≠ '\n') then some (r.drop w) else none
  else if 2 ≤ r.length && (match r.getLast? with
      | some c => decide (c ≠ '\n')
      | none => false) then
    some (r.drop (r.length - 1))
  else none

/-- Match `\d+:\d+` at the start of `r` followed by `\s+(?P<text>.+)$`;
returns the `digits:digits` token and the `text` group. -/
def refThen (r : LC) : Option (LC × LC) :=
  let d1 := r.takeWhile pyIsDigit
  if d1.isEmpty then none else
  match r.drop d1.length with
  | c :: r2 =>
    if c = ':' then
      let d2 := r2.takeWhile pyIsDigit
      if d2.isEmpty then none else
      match wsDotText (r2.drop d2.length) with
      | some text => some (d1 ++ ':' :: d2, text)
      | none => none
    else none
  | [] => none

/-- Match `\s+\d+:\d+` at the start of `r` followed by the trailing part;
returns the consumed characters (whitespace plus reference) and the text. -/
def wsRefThen (r : LC) : Option (LC × LC) :=
  let w := r.takeWhile pyIsSpace
  if w.isEmpty then none else
  match refThen (r.drop w.length) with
  | some (ref, text) => some (w ++ ref, text)
  | none => none

/-- The lazy star `[A-Za-z ]*?` followed by `\s+\d+:\d+` and the trailing
part: try the empty expansion first, then consume one class character and
recurse.  Returns the consumed characters and the text group. -/
def lazyStarSearch : LC → Option (LC × LC)
  | [] =>
    match wsRefThen [] with
    | some p => some p
    | none => none
  | c :: rest =>
    match wsRefThen (c :: rest) with
    | some p => some p
    | none =>
      if pyIsAlphaSpace c then
        match lazyStarSearch rest with
        | some (cs, t) => some (c :: cs, t)
        | none => none
      else none

/-- One mandatory `[A-Za-z]` then the lazy star and the rest. -/
def alphaThen (r : LC) : Option (LC × LC) :=
  match r with
  | c :: rest =>
    if pyIsAlpha c then
      match lazyStarSearch rest with
      | some (cs, t) => some (c :: cs, t)
      | none => none
    else none
  | [] => none

/-- The optional prefix group `[1-3]?\s?[A-Za-z][A-Za-z ]*?` followed by
`\s+\d+:\d+` and the trailing part, in greedy backtracking order over the
four `[1-3]?` / `\s?` combinations. -/
def prefixAttempt (s : LC) : Option (LC × LC) :=
  let o1 := match s with
    | c1 :: c2 :: rest =>
      if oneToThree c1 && pyIsSpace c2 then
        (alphaThen rest).map (fun (p : LC × LC) => (c1 :: c2 :: p.1, p.2))
      else none
    | _ => none
  match o1 with
  | some p => some p
  | none =>
  let o2 := match s with
    | c1 :: rest =>
      if oneToThree c1 then (alphaThen rest).map (fun (p : LC × LC) => (c1 :: p.1, p.2))
      else none
    | [] => none
  match o2 with
  | some p => some p
  | none =>
  let o3 := match s with
    | c2 :: rest =>
      if pyIsSpace c2 then (alphaThen rest).map (fun (p : LC × LC) => (c2 :: p.1, p.2))
      else none
    | [] => none
  match o3 with
  | some p => some p
  | none => alphaThen s

/-- `LABEL_RE.match(s)` on a stripped line `s`: returns the `label` and
`text` groups on success.  The greedy optional prefix group is tried first;
if every expansion of it fails, the label is just `\d+:\d+`. -/
def labelMatch (s : LC) : Option (LC × LC) :=
  match prefixAttempt s with
  | some p => some p
  | none => refThen s

/-! ### `parse_verses` -/

/-- The loop body of `parse_verses`, written as structural recursion over the
remaining lines with the output list built so far as accumulator.  A blank
line is skipped; a line matching `LABEL_RE` appends a new
`(label.strip(), text.strip())` pair; any other line extends the last pair
(if one exists) with `(last_text + " " + s).strip()`. -/
def parseVersesAux (out : List (LC × LC)) : List LC → List (LC × LC)
  | [] => out
  | line :: rest =>
    let s := stripList line
    if s.isEmpty then parseVersesAux out rest
    else
      match labelMatch s with
      | some (label, text) =>
        parseVersesAux (out ++ [(stripList label, stripList text)]) rest
      | none =>
        match out.getLast? with
        | none => parseVersesAux out rest
        | some (lab, txt) =>
          parseVersesAux (out.dropLast ++ [(lab, stripList (txt ++ ' ' :: s))]) rest

/-- `parse_verses`: extract `(label, text)` pairs for verse-based content. -/
def parse_verses (lines : List LC) : List (LC × LC) :=
  parseVersesAux [] lines

/-! ### `parse_paragraphs` -/

/-- `' '.join` on a list of strings. -/
def joinSpace (xs : List LC) : LC := List.intercalate [' '] xs

/-- One iteration of the loop of `parse_paragraphs`, on the accumulator
`(paragraphs, current)`: a blank line flushes a non-empty `current` buffer
as one space-joined paragraph, a non-blank line pushes its stripped form
onto `current`. -/
def paraStep (acc : List LC × List LC) (line : LC) : List LC × List LC :=
  let stripped := stripList line
  if stripped.isEmpty then
    if acc.2.isEmpty then acc else (acc.1 ++ [joinSpace acc.2], [])
  else (acc.1, acc.2 ++ [stripped])

/-- The loop of `parse_paragraphs`. -/
def parseParagraphsFold (lines : List LC) : List LC × List LC :=
  lines.foldl paraStep ([], [])

/-- `parse_paragraphs`: paragraphs split on blank lines, each the
space-join of its stripped lines; a trailing buffer is flushed at the end. -/
def parse_paragraphs (lines : List LC) : List LC :=
  let acc := parseParagraphsFold lines
  if acc.2.isEmpty then acc.1 else acc.1 ++ [joinSpace acc.2]

/-! ### `batches` -/

/-- `batches(items, n)`: the slice `items[i:i+n]` for each
`i in range(0, len(items), n)`, i.e. `i = k * n` for
`k < ceil(len(items) / n)`.  For `n = 0` Python's `range` raises
`ValueError`; the claims only concern positive `n`, and the embedding
returns `[]` in that unreachable case. -/
def batches (items : List α) (n : Nat) : List (List α) :=
  (List.range ((items.length + n - 1) / n)).map fun k => (items.drop (k * n)).take n

/-! ### prompt builders and token estimate -/

/-- `re.search(r'\d+:\d+', ...)` successfully matching at the start of `s`:
maximal digit run, colon, maximal digit run (deterministic, since the
character after each greedy `\d+` must not be a digit). -/
def refAt (s : LC) : Option LC :=
  let d1 := s.takeWhile pyIsDigit
  if d1.isEmpty then none else
  match s.drop d1.length with
  | c :: r2 =>
    if c = ':' then
      let d2 := r2.takeWhile pyIsDigit
      if d2.isEmpty then none else some (d1 ++ ':' :: d2)
    else none
  | [] => none

/-- `re.search(r'\d+:\d+', label)`: leftmost position where the pattern
matches, scanning left to right. -/
def searchRef : LC → Option LC
  | [] => none
  | c :: rest =>
    match refAt (c :: rest) with
    | some r => some r
    | none => searchRef rest

/-- `'\n'.join` on a list of strings. -/
def joinNewline (xs : List LC) : LC := List.intercalate ['\n'] xs

/-- The header line of the verse prompt. -/
def versePromptHeader : LC :=
  "Rewrite each verse. Output format: verse_number rewritten_text\n".toList

/-- The framed block the loop body of `build_verse_prompt` appends for one
unit: `VERSE: {ref}\nTEXT: {text}\n---`, where the reference token is the
first `digits:digits` occurrence in the label, or the raw label verbatim
when none exists. -/
def verseBlock (u : LC × LC) : LC :=
  let verse_ref := match searchRef u.1 with
    | some r => r
    | none => u.1
  "VERSE: ".toList ++ verse_ref ++ "\nTEXT: ".toList ++ u.2 ++ "\n---".toList

/-- `build_verse_prompt`: a header plus one framed block per unit, joined
with newlines.  The Python `for` loop appending to `lines` is the fold. -/
def build_verse_prompt (batch : List (LC × LC)) : LC :=
  joinNewline (batch.foldl (fun acc u => acc ++ [verseBlock u]) [versePromptHeader])

/-- `"\n\n"` as a character list. -/
def blankSep : LC := ['\n', '\n']

/-- `"\n\n".join` on a list of strings. -/
def joinBlank (xs : List LC) : LC := List.intercalate blankSep xs

/-- `build_paragraph_prompt`. -/
def build_paragraph_prompt (paragraphs : List LC) : LC :=
  "Rewrite the following text, maintaining paragraph breaks:\n\n".toList ++
    joinBlank paragraphs

/-- `estimate_tokens`: `len(text) // 4`. -/
def estimate_tokens (text : LC) : Nat := text.length / 4

/-! ### the orchestrator `stream_rewrite`

The external service (`client.chat.completions.create(..., stream=True)`)
is modelled as a capability indexed by the call number: it either streams a
list of (non-empty, hence written) fragments and terminates normally, or
raises after delivering some partial list of fragments (before the call,
mid-stream, anywhere).  File writes are modelled as the concatenation of
everything appended to the output file, in order; each call's submitted
unit chunk is recorded so that submissions are observable. -/

/-- Outcome of one streaming call to the external service. -/
inductive StreamResult where
  | ok (frags : List LC)
  | err (part : List LC)
  deriving Repr, DecidableEq

/-- The inline failure marker `f"\n\n[ERROR: Batch {i+1} skipped due to error]\n\n"`
written when batch `i` (0-based) fails. -/
def errMarker (i : Nat) : LC :=
  ("\n\n[ERROR: Batch " ++ toString (i + 1) ++ " skipped due to error]\n\n").toList

/-- The failure marker of the single-call paragraph path. -/
def paragraphFailMarker : LC := "\n\n[ERROR: Processing failed]\n\n".toList

/-- Result of a `stream_rewrite` run over units of type `U`: all bytes
appended to the output file, the final `processed` counter, and the unit
chunks submitted to the service, in order of submission. -/
structure RunOut (U : Type) where
  out : LC
  processed : Nat
  calls : List (List U)
  deriving Repr, DecidableEq

/-- The per-batch loop shared by the verse branch and the batched paragraph
branch of `stream_rewrite`: for each chunk, submit one streaming call; on
success append its fragments (the paragraph branch, `sep = true`, also
appends `"\n\n"` after every successful non-final batch); on failure append
the delivered fragments then the inline error marker; either way advance
`processed` by the chunk's length and continue with the next chunk. -/
def runLoopAux (svc : Nat → StreamResult) (sep : Bool) (nTotal : Nat) :
    Nat → Nat → List (List U) → RunOut U
  | _, processed, [] => ⟨[], processed, []⟩
  | i, processed, chunk :: rest =>
    match svc i with
    | .ok frags =>
      let sepOut := if sep && i + 1 < nTotal then blankSep else []
      let r := runLoopAux svc sep nTotal (i + 1) (processed + chunk.length) rest
      ⟨frags.flatten ++ sepOut ++ r.out, r.processed, chunk :: r.calls⟩
    | .err part =>
      let r := runLoopAux svc sep nTotal (i + 1) (processed + chunk.length) rest
      ⟨part.flatten ++ errMarker i ++ r.out, r.processed, chunk :: r.calls⟩

/-- The batch loop started at batch 0 with `processed = 0`. -/
def runLoop (svc : Nat → StreamResult) (sep : Bool) (chunks : List (List U)) : RunOut U :=
  runLoopAux svc sep chunks.length 0 0 chunks

/-- The verse branch of `stream_rewrite`: split the units with the
caller-requested batch size and drive the batch loop (no separators). -/
def stream_rewrite_verse (svc : Nat → StreamResult) (units : List (LC × LC))
    (batch_size : Nat) : RunOut (LC × LC) :=
  runLoop svc false (batches units batch_size)

/-- The paragraph branch of `stream_rewrite`: estimate the token count of
the blank-line-joined document; below 2000 estimated tokens make a single
call with all units (writing `paragraphFailMarker`, and keeping no
`processed` counter, on failure); otherwise drive the batch loop with 3
units per batch when the estimate exceeds 4000 and 5 otherwise. -/
def stream_rewrite_para (svc : Nat → StreamResult) (units : List LC)
    (batch_size : Nat) : RunOut LC :=
  let estimated_tokens := estimate_tokens (joinBlank units)
  if estimated_tokens < 2000 then
    match svc 0 with
    | .ok frags => ⟨frags.flatten, 0, [units]⟩
    | .err part => ⟨part.flatten ++ paragraphFailMarker, 0, [units]⟩
  else
    runLoop svc true (batches units (if 4000 < estimated_tokens then 3 else 5))

/-! ### Spec-side definitions used to state the claims -/

/-- A line is blank when its stripped form is empty. -/
def isBlankLine (l : LC) : Bool := (stripList l).isEmpty

/-- Emit-style reformulation of the `parse_paragraphs` loop: the pending
buffer `cur` is flushed before each blank line and at end of input. -/
def paragraphsRec (cur : List LC) : List LC → List LC
  | [] => if cur.isEmpty then [] else [joinSpace cur]
  | l :: rest =>
    let s := stripList l
    if s.isEmpty then
      (if cur.isEmpty then [] else [joinSpace cur]) ++ paragraphsRec [] rest
    else paragraphsRec (cur ++ [s]) rest

/-- Segments of the line list delimited by blank lines (the non-empty ones
are exactly the maximal runs of non-blank lines).  Spec-side definition
used to state the paragraph-extractor claim. -/
def splitSegs : List LC → List (List LC)
  | [] => [[]]
  | l :: rest =>
    if isBlankLine l then [] :: splitSegs rest
    else
      match splitSegs rest with
      | [] => [[l]]
      | b :: bs => (l :: b) :: bs

/-- The maximal runs of non-blank lines, in order. -/
def specBlocks (lines : List LC) : List (List LC) :=
  (splitSegs lines).filter (fun b => !b.isEmpty)

/-- The bytes batch `i` contributes to the output file: its streamed
fragments plus (paragraph branch only) the `"\n\n"` separator after a
successful non-final batch, or the delivered fragments plus the inline
error marker when the service call fails. -/
def batchOut (svc : Nat → StreamResult) (sep : Bool) (nTotal i : Nat) : LC :=
  match svc i with
  | .ok frags => frags.flatten ++ (if sep && i + 1 < nTotal then blankSep else [])
  | .err part => part.flatten ++ errMarker i

/-- Concatenation of `batchOut` for `count` consecutive batches starting at
batch index `i`. -/
def outSeg (svc : Nat → StreamResult) (sep : Bool) (nTotal : Nat) : Nat → Nat → LC
  | _, 0 => []
  | i, count + 1 => batchOut svc sep nTotal i ++ outSeg svc sep nTotal (i + 1) count

/-- The well-formedness of a captured label: an arbitrary consumed part
followed by a `digits:digits` reference token as a suffix. -/
def LGood (lab : LC) : Prop :=
  ∃ p d1 d2, lab = p ++ (d1 ++ ':' :: d2) ∧ d1 ≠ [] ∧ d2 ≠ [] ∧
    (∀ c ∈ d1, pyIsDigit c = true) ∧ (∀ c ∈ d2, pyIsDigit c = true)

/-- The well-formedness of a captured text group: non-empty with a
non-whitespace first character. -/
def TGood (t : LC) : Prop :=
  ∃ c rest2, t = c :: rest2 ∧ pyIsSpace c = false

/-- The last character of `r`, when there is one, is not whitespace. -/
def lastNonWs (r : LC) : Prop :=
  ∀ c, r.getLast? = some c → pyIsSpace c = false

/-! ## Lemmas about the detector -/

lemma versePatternMatch_nil : versePatternMatch [] = false := rfl

lemma detectCounts_go (lines : List LC) (a b : Nat) :
    lines.foldl detectStep (a, b) =
      (a + lines.countP (fun l => !(stripList l).isEmpty),
       b + lines.countP (fun l => versePatternMatch (stripList l))) := by
  induction lines generalizing a b with
  | nil => simp
  | cons l rest ih =>
    simp only [List.foldl_cons, List.countP_cons]
    rw [ih (detectStep (a, b) l).1 (detectStep (a, b) l).2]
    by_cases h1 : (stripList l).isEmpty
    · have hnil : stripList l = [] := by simpa [List.isEmpty_iff] using h1
      simp only [detectStep, h1, hnil, versePatternMatch_nil, if_true, if_pos rfl]
      simp
    · by_cases h2 : versePatternMatch (stripList l)
      · simp only [detectStep, h1, h2]
        simp [h1, h2]
        omega
      · simp only [detectStep, h1, h2]
        simp [h1, h2]
        omega

lemma detectCounts_eq (lines : List LC) :
    detectCounts lines =
      (lines.countP (fun l => !(stripList l).isEmpty),
       lines.countP (fun l => versePatternMatch (stripList l))) := by
  simpa using detectCounts_go lines 0 0

/-! ## Lemmas about `batches` -/

lemma batches_nil (n : Nat) : batches ([] : List α) n = [] := by
  have h : (n - 1) / n = 0 := by
    cases n with
    | zero => simp
    | succ m => exact Nat.div_eq_of_lt (by omega)
  simp [batches, h]

lemma batches_cons {items : List α} {n : Nat} (hn : 0 < n) (hne : items ≠ []) :
    batches items n = items.take n :: batches (items.drop n) n := by
  have hL : 0 < items.length := List.length_pos.mpr hne
  set L := items.length with hLdef
  have key : (L + n - 1) / n = ((L - n) + n - 1) / n + 1 := by
    have h1 : L + n - 1 = (L - 1) + n := by omega
    rcases le_or_lt n L with h | h
    · have h2 : (L - n) + n - 1 = L - 1 := by omega
      rw [h1, h2, Nat.add_div_right _ hn]
    · have h2 : L - n = 0 := by omega
      rw [h1, h2, Nat.add_div_right _ hn]
      have h3 : (L - 1) / n = 0 := Nat.div_eq_of_lt (by omega)
      have h4 : (0 + n - 1) / n = 0 := Nat.div_eq_of_lt (by omega)
      rw [h3, h4]
  simp only [batches, List.length_drop, ← hLdef, key, List.range_succ_eq_map]
  simp only [List.map_cons, List.map_map, Nat.zero_mul, List.drop_zero]
  refine congrArg (items.take n :: ·) ?_
  refine List.map_congr_left fun k _ => ?_
  simp only [Function.comp_apply, Nat.succ_mul, List.drop_drop]
  rw [Nat.add_comm (k * n) n]

lemma batches_flatten_of_length {n : Nat} (hn : 0 < n) :
    ∀ (L : Nat) (items : List α), items.length = L → (batches items n).flatten = items := by
  intro L
  induction L using Nat.strong_induction_on with
  | _ L ih =>
    intro items hlen
    by_cases hne : items = []
    · subst hne; simp [batches_nil]
    · rw [batches_cons hn hne]
      have hL : 0 < items.length := List.length_pos.mpr hne
      have hlt : (items.drop n).length < L := by
        simp only [List.length_drop]; omega
      rw [List.flatten_cons, ih _ (by omega) _ rfl, List.take_append_drop]

lemma batches_mem_length_le {items : List α} {n : Nat} {b : List α}
    (hb : b ∈ batches items n) : b.length ≤ n := by
  simp only [batches, List.mem_map, List.mem_range] at hb
  obtain ⟨k, -, rfl⟩ := hb
  simp [List.length_take]

lemma batches_dropLast_length {n : Nat} (hn : 0 < n) :
    ∀ (L : Nat) (items : List α), items.length = L →
      ∀ b ∈ (batches items n).dropLast, b.length = n := by
  intro L
  induction L using Nat.strong_induction_on with
  | _ L ih =>
    intro items hlen b hb
    by_cases hne : items = []
    · subst hne; simp [batches_nil] at hb
    · rw [batches_cons hn hne] at hb
      by_cases htail : batches (items.drop n) n = []
      · simp [htail] at hb
      · obtain ⟨c, cs, hcons⟩ := List.exists_cons_of_ne_nil htail
        rw [hcons] at hb
        simp only [List.dropLast_cons₂, List.mem_cons] at hb
        have hdropne : items.drop n ≠ [] := by
          intro h0
          rw [h0, batches_nil] at htail
          exact htail rfl
        have hlong : n < items.length := by
          have := List.length_pos.mpr hdropne
          simp only [List.length_drop] at this
          omega
        rcases hb with rfl | hb
        · simp [List.length_take]; omega
        · have hL : 0 < items.length := List.length_pos.mpr hne
          have hlt : (items.drop n).length < L := by
            simp only [List.length_drop]; omega
          have := ih _ (by omega) (items.drop n) rfl b
          rw [hcons] at this
          exact this hb

/-! ## Lemmas about `parse_verses` -/

lemma labelMatch_nil : labelMatch [] = none := rfl

lemma parseVersesAux_length (lines : List LC) :
    ∀ out, (parseVersesAux out lines).length =
      out.length + lines.countP (fun l => (labelMatch (stripList l)).isSome) := by
  induction lines with
  | nil => intro out; simp [parseVersesAux]
  | cons l rest ih =>
    intro out
    rw [List.countP_cons]
    by_cases h1 : (stripList l).isEmpty
    · have hnil : stripList l = [] := by simpa [List.isEmpty_iff] using h1
      simp only [parseVersesAux, h1, if_true]
      rw [ih out, hnil, labelMatch_nil]
      simp
    · rcases hm : labelMatch (stripList l) with - | ⟨lab, txt⟩
      · rcases ho : out.getLast? with - | ⟨plab, ptxt⟩
        · simp only [parseVersesAux]
          rw [if_neg h1]
          simp only [hm, ho]
          rw [ih out]
          simp [hm]
        · simp only [parseVersesAux]
          rw [if_neg h1]
          simp only [hm, ho]
          rw [ih (out.dropLast ++ [(plab, stripList (ptxt ++ ' ' :: stripList l))])]
          have hne : out ≠ [] := by
            intro h0; rw [h0] at ho; simp at ho
          have hpos : 0 < out.length := List.length_pos.mpr hne
          simp only [List.length_append, List.length_dropLast, List.length_singleton]
          simp [hm]
          omega
      · simp only [parseVersesAux]
        rw [if_neg h1]
        simp only [hm]
        rw [ih (out ++ [(stripList lab, stripList txt)])]
        simp [hm]
        omega

lemma parseVersesAux_skip (pre rest : List LC)
    (h : ∀ l ∈ pre, labelMatch (stripList l) = none) :
    parseVersesAux [] (pre ++ rest) = parseVersesAux [] rest := by
  induction pre with
  | nil => rfl
  | cons l pre ih =>
    have hl : labelMatch (stripList l) = none := h l (by simp)
    have hpre : ∀ x ∈ pre, labelMatch (stripList x) = none :=
      fun x hx => h x (by simp [hx])
    simp only [List.cons_append]
    by_cases h1 : (stripList l).isEmpty
    · simp only [parseVersesAux, h1, if_true]
      exact ih hpre
    · simp only [parseVersesAux, h1, if_false, hl, List.getLast?_nil]
      exact ih hpre

/-! ## Lemmas about the orchestrator loop -/

lemma runLoopAux_eq {U : Type} (svc : Nat → StreamResult) (sep : Bool) (nTotal : Nat)
    (chunks : List (List U)) : ∀ i p : Nat,
    runLoopAux svc sep nTotal i p chunks =
      ⟨outSeg svc sep nTotal i chunks.length, p + (chunks.map List.length).sum, chunks⟩ := by
  induction chunks with
  | nil => intro i p; simp [runLoopAux, outSeg]
  | cons chunk rest ih =>
    intro i p
    simp only [runLoopAux]
    rcases hsvc : svc i with frags | part
    · rw [ih]
      simp only [List.length_cons, outSeg, batchOut, hsvc, List.map_cons, List.sum_cons]
      refine congrArg (RunOut.mk _ · _) ?_
      omega
    · rw [ih]
      simp only [List.length_cons, outSeg, batchOut, hsvc, List.map_cons, List.sum_cons]
      refine congrArg (RunOut.mk _ · _) ?_
      omega

lemma runLoop_eq {U : Type} (svc : Nat → StreamResult) (sep : Bool)
    (chunks : List (List U)) :
    runLoop svc sep chunks =
      ⟨outSeg svc sep chunks.length 0 chunks.length,
       (chunks.map List.length).sum, chunks⟩ := by
  simpa using runLoopAux_eq svc sep chunks.length chunks 0 0

lemma outSeg_add (svc : Nat → StreamResult) (sep : Bool) (nTotal : Nat) :
    ∀ (a i b : Nat), outSeg svc sep nTotal i (a + b) =
      outSeg svc sep nTotal i a ++ outSeg svc sep nTotal (i + a) b := by
  intro a
  induction a with
  | zero => intro i b; simp [outSeg]
  | succ a ih =>
    intro i b
    have h1 : a + 1 + b = (a + b) + 1 := by omega
    rw [h1]
    simp only [outSeg]
    rw [ih (i + 1) b, List.append_assoc]
    have h2 : i + 1 + a = i + (a + 1) := by omega
    rw [h2]

/-! ## Claim theorems: detector and batch planner -/

/-- C2: `detect_format` returns `"verse"` exactly when the number `N` of
non-empty (after stripping) lines is positive and the verse-pattern count
`V` satisfies `V / N > 0.30` (as the exact rational comparison
`3 * N < 10 * V`); it returns `"paragraph"` in every other case, and in
particular an empty or whitespace-only document (`N = 0`) always yields
`"paragraph"` (the function is total, so it cannot raise). -/
theorem detect_format_threshold (lines : List LC) :
    (detect_format lines = "verse" ↔
      0 < lines.countP (fun l => !(stripList l).isEmpty) ∧
      3 * lines.countP (fun l => !(stripList l).isEmpty) <
        10 * lines.countP (fun l => versePatternMatch (stripList l))) ∧
    (detect_format lines = "verse" ∨ detect_format lines = "paragraph") ∧
    (lines.countP (fun l => !(stripList l).isEmpty) = 0 →
      detect_format lines = "paragraph") := by
  have h := detectCounts_eq lines
  set N := lines.countP (fun l => !(stripList l).isEmpty) with hN
  set V := lines.countP (fun l => versePatternMatch (stripList l)) with hV
  have hdf : detect_format lines =
      if 0 < N && 3 * N < 10 * V then "verse" else "paragraph" := by
    simp [detect_format, h]
  rw [hdf]
  by_cases hc : 0 < N ∧ 3 * N < 10 * V
  · rw [if_pos (by simp [hc.1, hc.2])]
    exact ⟨⟨fun _ => hc, fun _ => rfl⟩, Or.inl rfl, fun h0 => absurd hc (by omega)⟩
  · rw [if_neg (by simpa using hc)]
    exact ⟨⟨fun hpq => absurd hpq (by decide), fun hcc => absurd hcc hc⟩,
      Or.inr rfl, fun _ => rfl⟩

/-- Witness for C2 at a concrete document: one verse line out of one
non-empty line crosses the 30% threshold. -/
theorem detect_format_threshold_witness :
    detect_format ["1:1 hi".toList] = "verse" :=
  (detect_format_threshold ["1:1 hi".toList]).1.mpr (by decide)

/-- C3: for every unit list and positive batch size `n`, the planner's
batches concatenate back to the original sequence (no duplication, loss or
reordering; contiguity in order), every batch has size at most `n`, all
non-final batches have size exactly `n` (only the last may be smaller),
and 25 units with `n = 10` give batch sizes `[10, 10, 5]`. -/
theorem batches_partition {α : Type} (items : List α) (n : Nat) (hn : 0 < n) :
    (batches items n).flatten = items ∧
    (∀ b ∈ batches items n, b.length ≤ n) ∧
    (∀ b ∈ (batches items n).dropLast, b.length = n) ∧
    (batches (List.range 25) 10).map List.length = [10, 10, 5] :=
  ⟨batches_flatten_of_length hn items.length items rfl,
   fun _ hb => batches_mem_length_le hb,
   batches_dropLast_length hn items.length items rfl,
   by decide⟩

/-- Witness for C3 at the spec's concrete scenario: 25 units, batch size 10. -/
theorem batches_partition_witness :
    (batches (List.range 25) 10).flatten = List.range 25 ∧
    (batches (List.range 25) 10).map List.length = [10, 10, 5] :=
  ⟨(batches_partition (List.range 25) 10 (by decide)).1,
   (batches_partition (List.range 25) 10 (by decide)).2.2.2⟩

/-! ## Claim theorems: verse extractor counting and preface lines -/

/-- C4: the verse extractor returns exactly one unit per stripped line
matching `LABEL_RE` (first conjunct), and a non-blank non-matching line
arriving while at least one unit exists never creates a new unit: it is
appended, space-joined and re-stripped, to the text of the most recently
opened unit (second conjunct, stated as a step equation of the extractor
loop). -/
theorem parse_verses_unit_count :
    (∀ lines : List LC, (parse_verses lines).length =
      lines.countP (fun l => (labelMatch (stripList l)).isSome)) ∧
    (∀ (out : List (LC × LC)) (lab txt line : LC) (rest : List LC),
      ¬(stripList line).isEmpty = true → labelMatch (stripList line) = none →
      parseVersesAux (out ++ [(lab, txt)]) (line :: rest) =
        parseVersesAux (out ++ [(lab, stripList (txt ++ ' ' :: stripList line))]) rest) := by
  constructor
  · intro lines
    simpa using parseVersesAux_length lines []
  · intro out lab txt line rest h1 hm
    simp only [parseVersesAux]
    rw [if_neg h1]
    simp only [hm, List.getLast?_concat, List.dropLast_concat]

/-- Witness for C4: a label line followed by a continuation line yields one
unit whose text absorbed the continuation. -/
theorem parse_verses_unit_count_witness :
    parse_verses ["1:1 alpha".toList, "beta".toList] =
      [("1:1".toList, "alpha beta".toList)] := by
  have h := parse_verses_unit_count.2 [] "1:1".toList "alpha".toList "beta".toList []
    (by decide) (by decide)
  simp only [List.nil_append] at h
  calc parse_verses ["1:1 alpha".toList, "beta".toList]
      = parseVersesAux [("1:1".toList, "alpha".toList)] ["beta".toList] := by decide
    _ = parseVersesAux
          [("1:1".toList, stripList ("alpha".toList ++ ' ' :: stripList "beta".toList))]
          [] := h
    _ = [("1:1".toList, "alpha beta".toList)] := by decide

/-- C10: every line (blank or not) preceding the first `LABEL_RE`-matching
line is silently discarded by the verse extractor: no synthetic preface
unit is created and such lines contribute to no unit's text, so the parse
of `pre ++ rest` equals the parse of `rest` whenever no line of `pre`
matches. -/
theorem parse_verses_discards_preface (pre rest : List LC)
    (h : ∀ l ∈ pre, labelMatch (stripList l) = none) :
    parse_verses (pre ++ rest) = parse_verses rest :=
  parseVersesAux_skip pre rest h

/-- Witness for C10: a non-blank preface line before the first label line
leaves the result unchanged. -/
theorem parse_verses_discards_preface_witness :
    parse_verses ["Some preface line".toList, "1:1 text".toList] =
      parse_verses ["1:1 text".toList] :=
  parse_verses_discards_preface ["Some preface line".toList] ["1:1 text".toList]
    (by decide)

/-! ## Lemmas about `parse_paragraphs` -/

lemma paragraphsRec_nil (cur : List LC) :
    paragraphsRec cur [] = if cur.isEmpty then [] else [joinSpace cur] := rfl

lemma paragraphsRec_cons (cur : List LC) (l : LC) (rest : List LC) :
    paragraphsRec cur (l :: rest) =
      if (stripList l).isEmpty then
        (if cur.isEmpty then [] else [joinSpace cur]) ++ paragraphsRec [] rest
      else paragraphsRec (cur ++ [stripList l]) rest := rfl

lemma paraFold_go (lines : List LC) : ∀ ps cur : List LC,
    (if (lines.foldl paraStep (ps, cur)).2.isEmpty
      then (lines.foldl paraStep (ps, cur)).1
      else (lines.foldl paraStep (ps, cur)).1 ++
        [joinSpace (lines.foldl paraStep (ps, cur)).2]) =
      ps ++ paragraphsRec cur lines := by
  induction lines with
  | nil =>
    intro ps cur
    simp only [List.foldl_nil, paragraphsRec]
    by_cases hc : cur.isEmpty <;> simp [hc]
  | cons l rest ih =>
    intro ps cur
    simp only [List.foldl_cons, paragraphsRec]
    by_cases h1 : (stripList l).isEmpty
    · by_cases hc : cur.isEmpty
      · have hstep : paraStep (ps, cur) l = (ps, cur) := by
          simp [paraStep, h1, hc]
        have hcur : cur = [] := by simpa [List.isEmpty_iff] using hc
        rw [hstep, ih ps cur, hcur]
        simp [h1, hc]
      · have hstep : paraStep (ps, cur) l = (ps ++ [joinSpace cur], []) := by
          simp [paraStep, h1, hc]
        rw [hstep, ih (ps ++ [joinSpace cur]) []]
        simp [h1, hc]
    · have hstep : paraStep (ps, cur) l = (ps, cur ++ [stripList l]) := by
        simp [paraStep, h1]
      rw [hstep, ih ps (cur ++ [stripList l])]
      simp [h1]

lemma parse_paragraphs_eq_rec (lines : List LC) :
    parse_paragraphs lines = paragraphsRec [] lines := by
  have h := paraFold_go lines [] []
  simp only [parse_paragraphs, parseParagraphsFold]
  simpa using h

lemma splitSegs_ne_nil (lines : List LC) : splitSegs lines ≠ [] := by
  cases lines with
  | nil => simp [splitSegs]
  | cons l rest =>
    simp only [splitSegs]
    by_cases hb : isBlankLine l
    · simp [hb]
    · simp only [hb, if_false]
      rcases splitSegs rest with - | ⟨b, bs⟩ <;> simp

lemma splitSegs_mem (lines : List LC) :
    ∀ b ∈ splitSegs lines, ∀ l ∈ b, l ∈ lines ∧ isBlankLine l = false := by
  induction lines with
  | nil =>
    intro b hb l hl
    simp [splitSegs] at hb
    subst hb
    simp at hl
  | cons x rest ih =>
    intro b hb l hl
    by_cases hx : isBlankLine x
    · simp only [splitSegs, if_pos hx, List.mem_cons] at hb
      rcases hb with rfl | hb
      · simp at hl
      · have h := ih b hb l hl
        exact ⟨List.mem_cons_of_mem x h.1, h.2⟩
    · cases hseg : splitSegs rest with
      | nil => exact absurd hseg (splitSegs_ne_nil rest)
      | cons c cs =>
        simp only [splitSegs, if_neg hx, hseg, List.mem_cons] at hb
        rcases hb with rfl | hb
        · rw [List.mem_cons] at hl
          rcases hl with rfl | hl
          · exact ⟨List.mem_cons_self _ _, by simpa using hx⟩
          · have hc : c ∈ splitSegs rest := by rw [hseg]; exact List.mem_cons_self _ _
            have h := ih c hc l hl
            exact ⟨List.mem_cons_of_mem x h.1, h.2⟩
        · have hcs : b ∈ splitSegs rest := by
            rw [hseg]; exact List.mem_cons_of_mem _ hb
          have h := ih b hcs l hl
          exact ⟨List.mem_cons_of_mem x h.1, h.2⟩

lemma paragraphsRec_spec : ∀ (lines : List LC) (cur b0 : List LC) (bs : List (List LC)),
    splitSegs lines = b0 :: bs →
    paragraphsRec cur lines =
      (if (cur ++ b0.map stripList).isEmpty then []
        else [joinSpace (cur ++ b0.map stripList)]) ++
      (bs.filter (fun b => !b.isEmpty)).map (fun b => joinSpace (b.map stripList)) := by
  intro lines
  induction lines with
  | nil =>
    intro cur b0 bs hseg
    simp only [splitSegs] at hseg
    injection hseg with h1 h2
    subst h1; subst h2
    rw [paragraphsRec_nil]
    simp only [List.map_nil, List.append_nil, List.filter_nil, List.map_nil]
  | cons l rest ih =>
    intro cur b0 bs hseg
    simp only [splitSegs] at hseg
    by_cases hb : isBlankLine l
    · rw [if_pos hb] at hseg
      injection hseg with h1 h2
      subst h1; subst h2
      cases hseg2 : splitSegs rest with
      | nil => exact absurd hseg2 (splitSegs_ne_nil rest)
      | cons c0 cs =>
        have hlhs : paragraphsRec cur (l :: rest) =
            (if cur.isEmpty then [] else [joinSpace cur]) ++ paragraphsRec [] rest := by
          have hstrip : (stripList l).isEmpty = true := hb
          rw [paragraphsRec_cons, if_pos hstrip]
        rw [hlhs, ih [] c0 cs hseg2]
        have hc0 : (c0.map stripList).isEmpty = c0.isEmpty := by
          cases c0 <;> rfl
        by_cases hc0e : c0.isEmpty = true
        · simp [List.filter_cons, hc0, hc0e, List.append_assoc]
        · simp [List.filter_cons, hc0, hc0e, List.append_assoc]
    · rw [if_neg hb] at hseg
      cases hseg2 : splitSegs rest with
      | nil => exact absurd hseg2 (splitSegs_ne_nil rest)
      | cons c0 cs =>
        simp only [hseg2] at hseg
        injection hseg with h1 h2
        subst h1; subst h2
        have hlhs : paragraphsRec cur (l :: rest) =
            paragraphsRec (cur ++ [stripList l]) rest := by
          have hstrip : ¬(stripList l).isEmpty = true := by simpa [isBlankLine] using hb
          rw [paragraphsRec_cons, if_neg hstrip]
        rw [hlhs, ih (cur ++ [stripList l]) c0 cs hseg2]
        have hap : cur ++ stripList l :: c0.map stripList =
            (cur ++ [stripList l]) ++ c0.map stripList := by simp
        rw [List.map_cons, hap]

lemma joinSpace_cons_ex (a : LC) (rest : List LC) :
    ∃ t, joinSpace (a :: rest) = a ++ t := by
  cases rest with
  | nil => exact ⟨[], by simp [joinSpace, List.intercalate]⟩
  | cons b t =>
    refine ⟨' ' :: List.intercalate [' '] (b :: t), ?_⟩
    simp [joinSpace, List.intercalate]

lemma joinSpace_ne_nil {b : List LC} (hb : b ≠ []) (hx : ∀ x ∈ b, x ≠ []) :
    joinSpace b ≠ [] := by
  cases b with
  | nil => exact absurd rfl hb
  | cons a rest =>
    obtain ⟨t, ht⟩ := joinSpace_cons_ex a rest
    rw [ht]
    have ha : a ≠ [] := hx a (List.mem_cons_self _ _)
    simp [List.append_eq_nil, ha]

/-- C1: for every sequence of batches driven by the orchestrator's batch
loop and every service capability that fails on batch `k` (delivering any
partial fragment list `part` before failing — before the call, mid-stream,
anywhere), the loop still submits every batch exactly once in order
(`calls = chunks`, so batches `k+1..N` are all attempted and the failed
batch is never retried), advances the processed counter by every batch's
size including the failed one so that the final count equals the total unit
count, and the output contains, between the outputs of the surrounding
batches, the failed batch's delivered fragments followed by the inline
error marker naming the failed batch's (1-based) index.  The loop is a
total function, hence never raises past its boundary. -/
theorem runLoop_failure_isolation {U : Type} (svc : Nat → StreamResult) (sep : Bool)
    (chunks : List (List U)) (k : Nat) (part : List LC)
    (hk : k < chunks.length) (hf : svc k = .err part) :
    (runLoop svc sep chunks).calls = chunks ∧
    (runLoop svc sep chunks).processed = chunks.flatten.length ∧
    (runLoop svc sep chunks).out =
      outSeg svc sep chunks.length 0 k ++
        (part.flatten ++ errMarker k) ++
        outSeg svc sep chunks.length (k + 1) (chunks.length - (k + 1)) := by
  rw [runLoop_eq]
  refine ⟨rfl, by simp [List.length_flatten], ?_⟩
  have h1 : chunks.length = k + (1 + (chunks.length - (k + 1))) := by omega
  have h2 : outSeg svc sep chunks.length 0 chunks.length =
      outSeg svc sep chunks.length 0 (k + (1 + (chunks.length - (k + 1)))) :=
    congrArg (outSeg svc sep chunks.length 0) h1
  rw [h2, outSeg_add, outSeg_add]
  simp only [Nat.zero_add, outSeg, batchOut, hf, List.append_nil, List.append_assoc]

/-- Witness for C1: three batches, the middle one failing mid-stream. -/
theorem runLoop_failure_isolation_witness :
    (runLoop (fun i => if i = 1 then StreamResult.err ["x".toList]
        else StreamResult.ok ["y".toList]) false [[(0 : Nat)], [1, 2], [3]]).out =
      "y".toList ++ ("x".toList ++ errMarker 1) ++ "y".toList ∧
    (runLoop (fun i => if i = 1 then StreamResult.err ["x".toList]
        else StreamResult.ok ["y".toList]) false [[(0 : Nat)], [1, 2], [3]]).processed = 4 := by
  have h := runLoop_failure_isolation (U := Nat)
    (fun i => if i = 1 then StreamResult.err ["x".toList] else StreamResult.ok ["y".toList])
    false [[0], [1, 2], [3]] 1 ["x".toList] (by decide) (by decide)
  refine ⟨?_, ?_⟩
  · rw [h.2.2]
    decide
  · rw [h.2.1]
    decide

/-- C7: for paragraph content the orchestrator ignores the caller-requested
batch size entirely (the submitted chunks are identical for any two
requested sizes); when the estimated token count of the blank-line-joined
document (`length / 4`) is below 2000 it submits all units in one single
call, and otherwise it splits the units with a per-batch unit count of 3
when the estimate exceeds 4000 and 5 otherwise. -/
theorem stream_rewrite_para_plan (svc : Nat → StreamResult) (units : List LC)
    (bs bs' : Nat) :
    (stream_rewrite_para svc units bs).calls = (stream_rewrite_para svc units bs').calls ∧
    (estimate_tokens (joinBlank units) < 2000 →
      (stream_rewrite_para svc units bs).calls = [units]) ∧
    (¬ estimate_tokens (joinBlank units) < 2000 →
      (stream_rewrite_para svc units bs).calls =
        batches units (if 4000 < estimate_tokens (joinBlank units) then 3 else 5)) := by
  by_cases hest : estimate_tokens (joinBlank units) < 2000
  · have hcalls : (stream_rewrite_para svc units bs).calls = [units] := by
      simp only [stream_rewrite_para, if_pos hest]
      rcases svc 0 with frags | part <;> rfl
    have hcalls' : (stream_rewrite_para svc units bs').calls = [units] := by
      simp only [stream_rewrite_para, if_pos hest]
      rcases svc 0 with frags | part <;> rfl
    exact ⟨by rw [hcalls, hcalls'], fun _ => hcalls, fun h => absurd hest h⟩
  · have hcalls : ∀ b : Nat, (stream_rewrite_para svc units b).calls =
        batches units (if 4000 < estimate_tokens (joinBlank units) then 3 else 5) := by
      intro b
      simp only [stream_rewrite_para, if_neg hest, runLoop_eq]
    exact ⟨by rw [hcalls bs, hcalls bs'], fun h => absurd h hest, fun _ => hcalls bs⟩

/-- Witness for C7: a two-character document is far below the 2000-token
threshold, so batch sizes 7 and 8 both produce the same single full batch. -/
theorem stream_rewrite_para_plan_witness :
    (stream_rewrite_para (fun _ => StreamResult.ok []) ["hi".toList] 7).calls =
      [["hi".toList]] :=
  (stream_rewrite_para_plan (fun _ => StreamResult.ok []) ["hi".toList] 7 8).2.1
    (by decide)

/-! ## Claim theorems: paragraph extractor -/

/-- C6: the paragraph extractor returns exactly one unit per maximal run of
non-blank lines (the non-empty segments between blank lines), each unit
being the stripped lines of its run joined with single spaces — the
trailing buffer flush is part of this correspondence; no returned unit is
empty; and an input with no non-blank line yields zero units. -/
theorem parse_paragraphs_blocks (lines : List LC) :
    parse_paragraphs lines =
      (specBlocks lines).map (fun b => joinSpace (b.map stripList)) ∧
    (∀ u ∈ parse_paragraphs lines, u ≠ []) ∧
    ((∀ l ∈ lines, (stripList l).isEmpty = true) → parse_paragraphs lines = []) := by
  have hmain : parse_paragraphs lines =
      (specBlocks lines).map (fun b => joinSpace (b.map stripList)) := by
    rw [parse_paragraphs_eq_rec]
    cases hseg : splitSegs lines with
    | nil => exact absurd hseg (splitSegs_ne_nil lines)
    | cons b0 bs =>
      rw [paragraphsRec_spec lines [] b0 bs hseg]
      have hb0 : (b0.map stripList).isEmpty = b0.isEmpty := by cases b0 <;> rfl
      by_cases h0 : b0.isEmpty = true
      · simp [specBlocks, hseg, List.filter_cons, hb0, h0]
      · simp [specBlocks, hseg, List.filter_cons, hb0, h0]
  refine ⟨hmain, ?_, ?_⟩
  · intro u hu
    rw [hmain, List.mem_map] at hu
    obtain ⟨b, hb, rfl⟩ := hu
    rw [specBlocks, List.mem_filter] at hb
    obtain ⟨hbmem, hbne⟩ := hb
    have hbne' : b ≠ [] := by
      intro h0; rw [h0] at hbne; simp at hbne
    apply joinSpace_ne_nil
    · simpa [List.map_eq_nil_iff] using hbne'
    · intro x hx
      rw [List.mem_map] at hx
      obtain ⟨l, hl, rfl⟩ := hx
      have hnb := (splitSegs_mem lines b hbmem l hl).2
      intro h0
      rw [isBlankLine, h0] at hnb
      simp at hnb
  · intro hall
    rw [hmain]
    have hempty : specBlocks lines = [] := by
      rw [specBlocks, List.filter_eq_nil_iff]
      intro b hb
      cases b with
      | nil => simp
      | cons x xs =>
        have h := splitSegs_mem lines (x :: xs) hb x (List.mem_cons_self _ _)
        have hblank := hall x h.1
        rw [isBlankLine, hblank] at h
        simp at h
    rw [hempty]
    rfl

/-- Witness for C6: the spec's paragraph scenario, plus a whitespace-only
document yielding zero units. -/
theorem parse_paragraphs_blocks_witness :
    parse_paragraphs ["Hello world.\n".toList, "It was nice.\n".toList, "\n".toList,
        "Second para.\n".toList] =
      ["Hello world. It was nice.".toList, "Second para.".toList] ∧
    parse_paragraphs ["\n".toList, "  \n".toList] = [] := by
  constructor
  · rw [(parse_paragraphs_blocks ["Hello world.\n".toList, "It was nice.\n".toList,
      "\n".toList, "Second para.\n".toList]).1]
    decide
  · exact (parse_paragraphs_blocks ["\n".toList, "  \n".toList]).2.2 (by decide)

/-! ## Lemmas about `searchRef` and the verse prompt -/

lemma mem_takeWhile_pred {p : Char → Bool} : ∀ {r : LC} {c : Char},
    c ∈ r.takeWhile p → p c = true := by
  intro r
  induction r with
  | nil => intro c h; simp [List.takeWhile] at h
  | cons a rest ih =>
    intro c h
    rw [List.takeWhile_cons] at h
    by_cases hp : p a
    · rw [if_pos hp, List.mem_cons] at h
      rcases h with rfl | h
      · exact hp
      · exact ih h
    · rw [if_neg hp] at h
      simp at h

lemma refAt_shape {s r : LC} (h : refAt s = some r) :
    ∃ d1 d2, r = d1 ++ ':' :: d2 ∧ d1 ≠ [] ∧ d2 ≠ [] ∧
      (∀ c ∈ d1, pyIsDigit c = true) ∧ (∀ c ∈ d2, pyIsDigit c = true) := by
  by_cases hd1 : (s.takeWhile pyIsDigit).isEmpty
  · simp [refAt, hd1] at h
  · cases hdrop : s.drop (s.takeWhile pyIsDigit).length with
    | nil => simp [refAt, hd1, hdrop] at h
    | cons c r2 =>
      by_cases hc : c = ':'
      · subst hc
        by_cases hd2 : (r2.takeWhile pyIsDigit).isEmpty
        · simp [refAt, hd1, hdrop, hd2] at h
        · simp only [refAt, hdrop] at h
          rw [if_neg hd1, if_pos (by trivial), if_neg hd2] at h
          injection h with h1
          refine ⟨s.takeWhile pyIsDigit, r2.takeWhile pyIsDigit, h1.symm, ?_, ?_, ?_, ?_⟩
          · simpa [List.isEmpty_iff] using hd1
          · simpa [List.isEmpty_iff] using hd2
          · intro x hx; exact mem_takeWhile_pred hx
          · intro x hx; exact mem_takeWhile_pred hx
      · simp [refAt, hd1, hdrop, hc] at h

lemma searchRef_cons (c : Char) (rest : LC) :
    searchRef (c :: rest) = match refAt (c :: rest) with
      | some r => some r
      | none => searchRef rest := rfl

lemma searchRef_shape : ∀ {lab r : LC}, searchRef lab = some r →
    ∃ d1 d2, r = d1 ++ ':' :: d2 ∧ d1 ≠ [] ∧ d2 ≠ [] ∧
      (∀ c ∈ d1, pyIsDigit c = true) ∧ (∀ c ∈ d2, pyIsDigit c = true) := by
  intro lab
  induction lab with
  | nil => intro r h; simp [searchRef] at h
  | cons c rest ih =>
    intro r h
    rw [searchRef_cons] at h
    cases href : refAt (c :: rest) with
    | some r' =>
      rw [href] at h
      injection h with h1
      exact h1 ▸ refAt_shape href
    | none =>
      rw [href] at h
      exact ih h

lemma foldl_append_blocks (f : (LC × LC) → LC) :
    ∀ (xs : List (LC × LC)) (init : List LC),
    xs.foldl (fun acc u => acc ++ [f u]) init = init ++ xs.map f := by
  intro xs
  induction xs with
  | nil => intro init; simp
  | cons x rest ih =>
    intro init
    rw [List.foldl_cons, ih (init ++ [f x]), List.map_cons, List.append_assoc,
      List.singleton_append]

/-! ## Claim theorems: verse prompt builder and detector narrowness -/

/-- C8: the verse prompt is the header followed by exactly one framed block
per input unit, in order (so no unit is dropped or merged); the block's
reference token is the first `digits:digits` substring of the unit's label
when one exists (and it then matches the strict `digits:digits` shape), and
otherwise the raw label string is used verbatim as the fallback token. -/
theorem build_verse_prompt_blocks (batch : List (LC × LC)) :
    build_verse_prompt batch =
      joinNewline (versePromptHeader :: batch.map verseBlock) ∧
    (batch.map verseBlock).length = batch.length ∧
    (∀ (u : LC × LC) (r : LC), searchRef u.1 = some r →
      verseBlock u =
        "VERSE: ".toList ++ r ++ "\nTEXT: ".toList ++ u.2 ++ "\n---".toList ∧
      ∃ d1 d2, r = d1 ++ ':' :: d2 ∧ d1 ≠ [] ∧ d2 ≠ [] ∧
        (∀ c ∈ d1, pyIsDigit c = true) ∧ (∀ c ∈ d2, pyIsDigit c = true)) ∧
    (∀ u : LC × LC, searchRef u.1 = none →
      verseBlock u =
        "VERSE: ".toList ++ u.1 ++ "\nTEXT: ".toList ++ u.2 ++ "\n---".toList) := by
  refine ⟨?_, by simp, ?_, ?_⟩
  · rw [build_verse_prompt, foldl_append_blocks verseBlock batch [versePromptHeader]]
    rfl
  · intro u r h
    exact ⟨by simp [verseBlock, h], searchRef_shape h⟩
  · intro u h
    simp [verseBlock, h]

/-- Witness for C8: a unit with an unparseable label keeps its raw label as
the reference token; a `Genesis 1:1` label is reduced to `1:1`. -/
theorem build_verse_prompt_blocks_witness :
    build_verse_prompt [("nolabel".toList, "text".toList)] =
      joinNewline [versePromptHeader,
        "VERSE: ".toList ++ "nolabel".toList ++ "\nTEXT: ".toList ++ "text".toList ++
          "\n---".toList] ∧
    verseBlock ("Genesis 1:1".toList, "t".toList) =
      "VERSE: ".toList ++ "1:1".toList ++ "\nTEXT: ".toList ++ "t".toList ++
        "\n---".toList := by
  constructor
  · rw [(build_verse_prompt_blocks [("nolabel".toList, "text".toList)]).1]
    decide
  · exact ((build_verse_prompt_blocks []).2.2.1 ("Genesis 1:1".toList, "t".toList)
      "1:1".toList (by decide)).1

/-- C9: on any document in which every non-blank stripped line fails the
detector's strict pattern `^\d+:\d+\s` while matching the extractor's
`LABEL_RE` (for instance lines with an alphabetic book prefix such as
`Genesis 1:1 ...`), `detect_format` classifies the document as
`"paragraph"`; the conjuncts exhibit such a line, showing the detector's
pattern is strictly narrower than the extractor's label pattern. -/
theorem detect_narrower_than_label (lines : List LC)
    (h : ∀ l ∈ lines, ¬(stripList l).isEmpty = true →
      versePatternMatch (stripList l) = false ∧
        (labelMatch (stripList l)).isSome = true) :
    detect_format lines = "paragraph" ∧
    (labelMatch (stripList "Genesis 1:1 In the beginning".toList)).isSome = true ∧
    versePatternMatch (stripList "Genesis 1:1 In the beginning".toList) = false := by
  refine ⟨?_, by decide, by decide⟩
  have hV : lines.countP (fun l => versePatternMatch (stripList l)) = 0 := by
    rw [List.countP_eq_zero]
    intro l hl
    by_cases he : (stripList l).isEmpty = true
    · have hnil : stripList l = [] := by simpa [List.isEmpty_iff] using he
      simp [hnil, versePatternMatch_nil]
    · simp [(h l hl he).1]
  have hc := detectCounts_eq lines
  simp only [detect_format, hc, hV]
  rw [if_neg (by simp)]

/-- Witness for C9: a two-line document of prefixed verse labels is
classified as paragraph content. -/
theorem detect_narrower_than_label_witness :
    detect_format ["Genesis 1:1 In the beginning".toList,
      "John 3:16 For God".toList] = "paragraph" :=
  (detect_narrower_than_label
    ["Genesis 1:1 In the beginning".toList, "John 3:16 For God".toList]
    (by decide)).1

/-! ## Soundness of the `LABEL_RE` matcher: shape of the captured groups -/

lemma LGood_cons {c : Char} {lab : LC} (h : LGood lab) : LGood (c :: lab) := by
  obtain ⟨p, d1, d2, rfl, hp⟩ := h
  exact ⟨c :: p, d1, d2, rfl, hp⟩

lemma digit_not_space {c : Char} (h : pyIsDigit c = true) : pyIsSpace c = false := by
  simp only [pyIsDigit, Bool.and_eq_true, decide_eq_true_eq] at h
  obtain ⟨h1, h2⟩ := h
  simp only [pyIsSpace, Bool.or_eq_false_iff, decide_eq_false_iff_not]
  refine ⟨⟨⟨⟨⟨?_, ?_⟩, ?_⟩, ?_⟩, ?_⟩, ?_⟩ <;> intro hc <;> subst hc <;>
    first
    | exact absurd h1 (by decide)
    | exact absurd h2 (by decide)

lemma getLast?_drop_ne {r : LC} : ∀ {m : Nat}, r.drop m ≠ [] →
    (r.drop m).getLast? = r.getLast? := by
  induction r with
  | nil => intro m h; simp at h
  | cons c rest ih =>
    intro m h
    cases m with
    | zero => rfl
    | succ m =>
      simp only [List.drop_succ_cons] at h ⊢
      rw [ih h]
      have hrest : rest ≠ [] := by
        intro h0; rw [h0] at h; simp at h
      cases rest with
      | nil => exact absurd rfl hrest
      | cons d t => simp [List.getLast?_cons_cons]

lemma lastNonWs_drop {r : LC} {m : Nat} (h : lastNonWs r) : lastNonWs (r.drop m) := by
  intro c hc
  have hne : r.drop m ≠ [] := by
    intro h0; rw [h0] at hc; simp at hc
  rw [getLast?_drop_ne hne] at hc
  exact h c hc

lemma lastNonWs_tail {c : Char} {r : LC} (h : lastNonWs (c :: r)) : lastNonWs r :=
  lastNonWs_drop (r := c :: r) (m := 1) h

lemma head?_dropWhile_not {p : Char → Bool} : ∀ {l : LC} {c : Char},
    (l.dropWhile p).head? = some c → p c = false := by
  intro l
  induction l with
  | nil => intro c h; simp [List.dropWhile] at h
  | cons a rest ih =>
    intro c h
    rw [List.dropWhile_cons] at h
    by_cases hp : p a
    · rw [if_pos hp] at h; exact ih h
    · rw [if_neg hp, List.head?_cons] at h
      injection h with h1
      subst h1
      simpa using hp

lemma stripList_lastNonWs (s : LC) : lastNonWs (stripList s) := by
  intro c hc
  rw [stripList, List.getLast?_reverse] at hc
  exact head?_dropWhile_not hc

lemma mem_of_dropWhile_mem {p : Char → Bool} : ∀ {l : LC} {c : Char},
    c ∈ l.dropWhile p → c ∈ l := by
  intro l
  induction l with
  | nil => intro c h; simpa [List.dropWhile] using h
  | cons a rest ih =>
    intro c h
    rw [List.dropWhile_cons] at h
    by_cases hp : p a
    · rw [if_pos hp] at h
      exact List.mem_cons_of_mem a (ih h)
    · rwa [if_neg hp] at h

lemma stripList_eq_nil_iff {s : LC} :
    stripList s = [] ↔ ∀ c ∈ s, pyIsSpace c = true := by
  rw [stripList, List.reverse_eq_nil_iff, List.dropWhile_eq_nil_iff]
  constructor
  · intro h c hc
    rw [← List.takeWhile_append_dropWhile pyIsSpace s, List.mem_append] at hc
    rcases hc with hc | hc
    · exact mem_takeWhile_pred hc
    · exact h c (List.mem_reverse.mpr hc)
  · intro h c hc
    exact h c (mem_of_dropWhile_mem (List.mem_reverse.mp hc))

lemma TGood_strip_ne_nil {t : LC} (h : TGood t) : stripList t ≠ [] := by
  obtain ⟨c, rest2, rfl, hc⟩ := h
  intro h0
  rw [stripList_eq_nil_iff] at h0
  have := h0 c (List.mem_cons_self _ _)
  rw [this] at hc
  exact absurd hc (by simp)

lemma length_takeWhile_le' {p : Char → Bool} : ∀ (r : LC),
    (r.takeWhile p).length ≤ r.length := by
  intro r
  induction r with
  | nil => simp
  | cons a rest ih =>
    rw [List.takeWhile_cons]
    by_cases hp : p a
    · rw [if_pos hp]; simpa using ih
    · rw [if_neg hp]; simp

lemma takeWhile_length_lt {p : Char → Bool} : ∀ {r : LC},
    (r.takeWhile p).length < r.length →
    ∃ c rest2, r.drop (r.takeWhile p).length = c :: rest2 ∧ p c = false := by
  intro r
  induction r with
  | nil => intro h; simp at h
  | cons a rest ih =>
    intro h
    by_cases hp : p a
    · rw [List.takeWhile_cons, if_pos hp] at h ⊢
      simp only [List.length_cons, List.drop_succ_cons]
      simp only [List.length_cons] at h
      exact ih (by omega)
    · rw [List.takeWhile_cons, if_neg hp]
      simp only [List.length_nil, List.drop_zero]
      exact ⟨a, rest, rfl, by simpa using hp⟩

lemma takeWhile_length_eq {p : Char → Bool} : ∀ {r : LC},
    (r.takeWhile p).length = r.length → ∀ c ∈ r, p c = true := by
  intro r
  induction r with
  | nil => intro h c hc; simp at hc
  | cons a rest ih =>
    intro h c hc
    by_cases hp : p a
    · rw [List.takeWhile_cons, if_pos hp, List.length_cons, List.length_cons] at h
      rw [List.mem_cons] at hc
      rcases hc with rfl | hc
      · exact hp
      · exact ih (by omega) c hc
    · rw [List.takeWhile_cons, if_neg hp] at h
      simp at h

lemma wsDotText_sound {r t : LC} (hr : lastNonWs r) (h : wsDotText r = some t) :
    TGood t := by
  simp only [wsDotText] at h
  by_cases h0 : (r.takeWhile pyIsSpace).length = 0
  · rw [if_pos h0] at h; exact absurd h (by simp)
  · rw [if_neg h0] at h
    by_cases h1 : (r.takeWhile pyIsSpace).length < r.length
    · rw [if_pos h1] at h
      obtain ⟨c, rest2, hdrop, hc⟩ := takeWhile_length_lt h1
      by_cases h2 : (r.drop (r.takeWhile pyIsSpace).length).all (fun c => c ≠ '\n')
      · rw [if_pos h2] at h
        injection h with ht
        exact ⟨c, rest2, by rw [← ht, hdrop], hc⟩
      · rw [if_neg h2] at h; exact absurd h (by simp)
    · exfalso
      have hlen : (r.takeWhile pyIsSpace).length = r.length := by
        have := length_takeWhile_le' (p := pyIsSpace) r
        omega
      have hne : r ≠ [] := by
        intro h0'; rw [h0'] at h0; simp at h0
      obtain ⟨c, hclast⟩ : ∃ c, r.getLast? = some c := by
        have := List.getLast?_isSome.mpr hne
        cases hg : r.getLast? with
        | none => rw [hg] at this; simp at this
        | some c => exact ⟨c, rfl⟩
      have hcs := takeWhile_length_eq hlen c (List.mem_of_getLast?_eq_some hclast)
      have := hr c hclast
      rw [hcs] at this
      exact absurd this (by simp)

lemma refThen_sound {r ref t : LC} (hr : lastNonWs r)
    (h : refThen r = some (ref, t)) :
    (∃ d1 d2, ref = d1 ++ ':' :: d2 ∧ d1 ≠ [] ∧ d2 ≠ [] ∧
      (∀ c ∈ d1, pyIsDigit c = true) ∧ (∀ c ∈ d2, pyIsDigit c = true)) ∧
    TGood t := by
  by_cases hd1 : (r.takeWhile pyIsDigit).isEmpty
  · simp [refThen, hd1] at h
  · cases hdrop : r.drop (r.takeWhile pyIsDigit).length with
    | nil => simp [refThen, hd1, hdrop] at h
    | cons c r2 =>
      by_cases hc : c = ':'
      · subst hc
        by_cases hd2 : (r2.takeWhile pyIsDigit).isEmpty
        · simp [refThen, hd1, hdrop, hd2] at h
        · simp only [refThen, hdrop] at h
          rw [if_neg hd1, if_pos (by trivial), if_neg hd2] at h
          have hr2 : lastNonWs r2 := by
            have hA : lastNonWs (r.drop (r.takeWhile pyIsDigit).length) :=
              lastNonWs_drop hr
            rw [hdrop] at hA
            exact lastNonWs_tail hA
          cases hws : wsDotText (r2.drop (r2.takeWhile pyIsDigit).length) with
          | none => rw [hws] at h; exact absurd h (by simp)
          | some text =>
            rw [hws] at h
            injection h with h1
            rw [Prod.mk.injEq] at h1
            obtain ⟨h2, h3⟩ := h1
            subst h3
            refine ⟨⟨r.takeWhile pyIsDigit, r2.takeWhile pyIsDigit, h2.symm, ?_, ?_,
              ?_, ?_⟩, wsDotText_sound (lastNonWs_drop hr2) hws⟩
            · simpa [List.isEmpty_iff] using hd1
            · simpa [List.isEmpty_iff] using hd2
            · intro x hx; exact mem_takeWhile_pred hx
            · intro x hx; exact mem_takeWhile_pred hx
      · simp [refThen, hd1, hdrop, hc] at h

lemma wsRefThen_sound {r lab t : LC} (hr : lastNonWs r)
    (h : wsRefThen r = some (lab, t)) : LGood lab ∧ TGood t := by
  by_cases hw : (r.takeWhile pyIsSpace).isEmpty
  · simp [wsRefThen, hw] at h
  · cases hrt : refThen (r.drop (r.takeWhile pyIsSpace).length) with
    | none => simp [wsRefThen, hw, hrt] at h
    | some pr =>
      obtain ⟨ref, text⟩ := pr
      have hsound := refThen_sound (lastNonWs_drop hr) hrt
      simp only [wsRefThen, hrt] at h
      rw [if_neg hw] at h
      injection h with h1
      rw [Prod.mk.injEq] at h1
      obtain ⟨h2, h3⟩ := h1
      subst h3
      obtain ⟨⟨d1, d2, hrefeq, hd⟩, ht⟩ := hsound
      refine ⟨⟨r.takeWhile pyIsSpace, d1, d2, ?_, hd.1, hd.2.1, hd.2.2.1, hd.2.2.2⟩, ht⟩
      rw [← h2, hrefeq]

lemma lazyStarSearch_sound : ∀ {r lab t : LC}, lastNonWs r →
    lazyStarSearch r = some (lab, t) → LGood lab ∧ TGood t := by
  intro r
  induction r with
  | nil =>
    intro lab t hr h
    simp [lazyStarSearch, wsRefThen] at h
  | cons c rest ih =>
    intro lab t hr h
    cases hwrt : wsRefThen (c :: rest) with
    | some pr =>
      simp only [lazyStarSearch, hwrt] at h
      injection h with h1
      obtain ⟨lab', t'⟩ := pr
      rw [Prod.mk.injEq] at h1
      obtain ⟨h2, h3⟩ := h1
      subst h2; subst h3
      exact wsRefThen_sound hr hwrt
    | none =>
      simp only [lazyStarSearch, hwrt] at h
      by_cases hcs : pyIsAlphaSpace c
      · rw [if_pos hcs] at h
        cases hlz : lazyStarSearch rest with
        | none => rw [hlz] at h; exact absurd h (by simp)
        | some pr2 =>
          obtain ⟨cs, t2⟩ := pr2
          rw [hlz] at h
          injection h with h1
          rw [Prod.mk.injEq] at h1
          obtain ⟨h2, h3⟩ := h1
          subst h3
          have hs := ih (lastNonWs_tail hr) hlz
          exact ⟨h2 ▸ LGood_cons hs.1, hs.2⟩
      · rw [if_neg hcs] at h
        exact absurd h (by simp)

lemma alphaThen_sound {r lab t : LC} (hr : lastNonWs r)
    (h : alphaThen r = some (lab, t)) : LGood lab ∧ TGood t := by
  cases r with
  | nil => simp [alphaThen] at h
  | cons c rest =>
    simp only [alphaThen] at h
    by_cases hca : pyIsAlpha c
    · rw [if_pos hca] at h
      cases hlz : lazyStarSearch rest with
      | none => rw [hlz] at h; exact absurd h (by simp)
      | some pr =>
        obtain ⟨cs, t2⟩ := pr
        rw [hlz] at h
        injection h with h1
        rw [Prod.mk.injEq] at h1
        obtain ⟨h2, h3⟩ := h1
        subst h3
        have hs := lazyStarSearch_sound (lastNonWs_tail hr) hlz
        exact ⟨h2 ▸ LGood_cons hs.1, hs.2⟩
    · rw [if_neg hca] at h
      exact absurd h (by simp)

lemma matchOr_eq {o k : Option (LC × LC)} {v : LC × LC}
    (h : (match o with | some p => some p | none => k) = some v) :
    o = some v ∨ (o = none ∧ k = some v) := by
  cases o with
  | some p => exact Or.inl h
  | none => exact Or.inr ⟨rfl, h⟩

lemma prefixAttempt_sound {s lab t : LC} (hs : lastNonWs s)
    (h : prefixAttempt s = some (lab, t)) : LGood lab ∧ TGood t := by
  match s with
  | [] => simp [prefixAttempt, alphaThen] at h
  | [c1] => simp [prefixAttempt, alphaThen, lazyStarSearch, wsRefThen] at h
  | c1 :: c2 :: rest =>
    have hrest : lastNonWs rest := lastNonWs_tail (lastNonWs_tail hs)
    have hc2rest : lastNonWs (c2 :: rest) := lastNonWs_tail hs
    simp only [prefixAttempt] at h
    rcases matchOr_eq h with h | ⟨-, h⟩
    · by_cases h1 : (oneToThree c1 && pyIsSpace c2) = true
      · rw [if_pos h1] at h
        rcases Option.map_eq_some'.mp h with ⟨⟨cs, t2⟩, ha, hmap⟩
        rw [Prod.mk.injEq] at hmap
        obtain ⟨h2, h3⟩ := hmap
        subst h3
        have hsound := alphaThen_sound hrest ha
        exact ⟨h2 ▸ LGood_cons (LGood_cons hsound.1), hsound.2⟩
      · rw [if_neg h1] at h
        exact absurd h (by simp)
    · rcases matchOr_eq h with h | ⟨-, h⟩
      · by_cases h2 : oneToThree c1 = true
        · rw [if_pos h2] at h
          rcases Option.map_eq_some'.mp h with ⟨⟨cs, t2⟩, ha, hmap⟩
          rw [Prod.mk.injEq] at hmap
          obtain ⟨h2', h3⟩ := hmap
          subst h3
          have hsound := alphaThen_sound hc2rest ha
          exact ⟨h2' ▸ LGood_cons hsound.1, hsound.2⟩
        · rw [if_neg h2] at h
          exact absurd h (by simp)
      · rcases matchOr_eq h with h | ⟨-, h⟩
        · by_cases h3c : pyIsSpace c1 = true
          · rw [if_pos h3c] at h
            rcases Option.map_eq_some'.mp h with ⟨⟨cs, t2⟩, ha, hmap⟩
            rw [Prod.mk.injEq] at hmap
            obtain ⟨h2', h3⟩ := hmap
            subst h3
            have hsound := alphaThen_sound hc2rest ha
            exact ⟨h2' ▸ LGood_cons hsound.1, hsound.2⟩
          · rw [if_neg h3c] at h
            exact absurd h (by simp)
        · exact alphaThen_sound hs h

lemma labelMatch_sound {s lab t : LC} (hs : lastNonWs s)
    (h : labelMatch s = some (lab, t)) : LGood lab ∧ TGood t := by
  simp only [labelMatch] at h
  rcases matchOr_eq h with h | ⟨-, h⟩
  · exact prefixAttempt_sound hs h
  · obtain ⟨⟨d1, d2, hrefeq, hd⟩, ht⟩ := refThen_sound hs h
    exact ⟨⟨[], d1, d2, by rw [hrefeq]; rfl, hd.1, hd.2.1, hd.2.2.1, hd.2.2.2⟩, ht⟩

lemma stripList_keep_sfx {p sfx : LC} (hne : sfx ≠ [])
    (hhead : pyIsSpace (sfx.headD ' ') = false)
    (hlast : ∀ c, sfx.getLast? = some c → pyIsSpace c = false) :
    ∃ q, stripList (p ++ sfx) = q ++ sfx := by
  have hdsfx : List.dropWhile pyIsSpace sfx = sfx := by
    cases sfx with
    | nil => rfl
    | cons a rest =>
      rw [List.dropWhile_cons, if_neg]
      rw [List.headD_cons] at hhead
      simp [hhead]
  obtain ⟨q, hq⟩ : ∃ q, List.dropWhile pyIsSpace (p ++ sfx) = q ++ sfx := by
    rw [List.dropWhile_append]
    by_cases hp : (List.dropWhile pyIsSpace p).isEmpty
    · rw [if_pos hp, hdsfx]; exact ⟨[], rfl⟩
    · rw [if_neg hp]; exact ⟨_, rfl⟩
  rw [stripList, hq, List.reverse_append]
  have hrev : List.dropWhile pyIsSpace (sfx.reverse ++ q.reverse) =
      sfx.reverse ++ q.reverse := by
    cases hrs : sfx.reverse with
    | nil => exact absurd (List.reverse_eq_nil_iff.mp hrs) hne
    | cons a rest =>
      rw [List.cons_append, List.dropWhile_cons, if_neg]
      have hga : sfx.getLast? = some a := by
        rw [← List.head?_reverse, hrs, List.head?_cons]
      simp [hlast a hga]
  rw [hrev, List.reverse_append, List.reverse_reverse, List.reverse_reverse]
  exact ⟨q, rfl⟩

lemma LGood_strip {lab : LC} (h : LGood lab) : LGood (stripList lab) := by
  obtain ⟨p, d1, d2, rfl, hd1, hd2, hdig1, hdig2⟩ := h
  have hne : d1 ++ ':' :: d2 ≠ [] := by simp
  have hhead : pyIsSpace ((d1 ++ ':' :: d2).headD ' ') = false := by
    cases d1 with
    | nil => exact absurd rfl hd1
    | cons a rest =>
      rw [List.cons_append, List.headD_cons]
      exact digit_not_space (hdig1 a (List.mem_cons_self _ _))
  have hlast : ∀ c, (d1 ++ ':' :: d2).getLast? = some c → pyIsSpace c = false := by
    intro c hc
    rw [List.getLast?_append] at hc
    cases d2 with
    | nil => exact absurd rfl hd2
    | cons a rest =>
      rw [List.getLast?_cons_cons] at hc
      cases hg : (a :: rest).getLast? with
      | none =>
        have hsome := List.getLast?_isSome.mpr (List.cons_ne_nil a rest)
        rw [hg] at hsome
        simp at hsome
      | some x =>
        rw [hg] at hc
        simp only [Option.or_some] at hc
        injection hc with h1
        subst h1
        exact digit_not_space (hdig2 x (List.mem_of_getLast?_eq_some hg))
  obtain ⟨q, hq⟩ := stripList_keep_sfx hne hhead hlast
  exact ⟨q, d1, d2, hq, hd1, hd2, hdig1, hdig2⟩

/-! ## Claim theorems: shape of verse units (C5) -/

/-- Counterexample to C5 as stated: for the line `Genesis 1:1 In the
beginning`, the claim's label field — exactly the text before the numeric
reference, trimmed, i.e. `Genesis` — differs from what the code stores: the
unit's first component is the full matched token `Genesis 1:1`, which
contains the reference itself. -/
theorem parse_verses_label_counterexample :
    parse_verses ["Genesis 1:1 In the beginning".toList] =
      [("Genesis 1:1".toList, "In the beginning".toList)] ∧
    "Genesis 1:1".toList ≠ "Genesis".toList := by decide

/-- C5 (amended): for every line whose stripped form matches `LABEL_RE`,
the verse extractor produces the unit `(label.strip(), text.strip())`,
where the stored label field is the entire matched label token — an
optional prefix part followed by the `digits:digits` reference as a suffix
matching a strict digits:digits pattern (`LGood`), not merely the text
before the reference — and the stored text field is non-empty after
trimming; the last conjunct exhibits the extractor step storing exactly
this pair. -/
theorem parse_verses_unit_shape (line lab txt : LC)
    (h : labelMatch (stripList line) = some (lab, txt)) :
    LGood (stripList lab) ∧ stripList txt ≠ [] ∧
    (∀ (out : List (LC × LC)) (rest : List LC), ¬(stripList line).isEmpty = true →
      parseVersesAux out (line :: rest) =
        parseVersesAux (out ++ [(stripList lab, stripList txt)]) rest) := by
  have hs := labelMatch_sound (stripList_lastNonWs line) h
  refine ⟨LGood_strip hs.1, TGood_strip_ne_nil hs.2, ?_⟩
  intro out rest h1
  simp only [parseVersesAux]
  rw [if_neg h1]
  simp only [h]

/-- Witness for C5 (amended) at `Genesis 1:1 In the beginning`. -/
theorem parse_verses_unit_shape_witness :
    LGood (stripList "Genesis 1:1".toList) ∧
      stripList "In the beginning".toList ≠ [] := by
  have h := parse_verses_unit_shape "Genesis 1:1 In the beginning".toList
    "Genesis 1:1".toList "In the beginning".toList (by decide)
  exact ⟨h.1, h.2.1⟩

end GenZ
